import Mathlib

/-!
Verification development for the sakurs sentence boundary detection (SBD)
engine, as described by the repository specification.  The repository ships
only the Python test-suite for its bindings; the core engine (LanguageRules,
Scanner, Combiner, Executor, segmentation API) is therefore modelled here
from the specification, with the Python tests pinning the observable
behaviour.  Texts are modelled as `List Char`, offsets as character offsets
into the decoded input (the Python-visible contract), and machine integers
as `Int`/`Nat`.
-/

/-! ### Generic list helpers -/

/-- Associativity of a truncating `zipWith` for an associative operation. -/
theorem zipWith_assoc_of_assoc {α : Type} (f : α → α → α)
    (hf : ∀ x y z, f (f x y) z = f x (f y z)) :
    ∀ (a b c : List α),
      List.zipWith f (List.zipWith f a b) c = List.zipWith f a (List.zipWith f b c) := by
  intro a
  induction a with
  | nil => intro b c; simp
  | cons x xs ih =>
    intro b c
    cases b with
    | nil => simp
    | cons y ys =>
      cases c with
      | nil => simp
      | cons z zs => simp [List.zipWith, hf, ih]

/-- True when the last element of the list is a whitespace character. -/
def endsWS (l : List Char) : Bool :=
  match l.getLast? with
  | some c => c.isWhitespace
  | none => false

theorem endsWS_append_of_ne_nil (s t : List Char) (ht : t ≠ []) :
    endsWS (s ++ t) = endsWS t := by
  unfold endsWS
  rw [List.getLast?_append_of_ne_nil _ ht]

theorem endsWS_append_nil (s : List Char) : endsWS (s ++ []) = endsWS s := by
  simp

/-- Drop leading whitespace (the default sentence trimming of the API). -/
def trimLead (l : List Char) : List Char :=
  l.dropWhile Char.isWhitespace

/-- The characters of positions `[a, b)` of a text. -/
def sliceText (t : List Char) (a b : ℕ) : List Char :=
  (t.drop a).take (b - a)

/-! ### LanguageRules

Modelled from the spec: §3.1/§4.1.  A validated, immutable bundle of
terminator characters, ellipsis run patterns with a "followed by capital"
context rule, enclosure pairs (asymmetric open/close pairs and symmetric
toggling characters, each identified by its list position), suppression
fast-patterns (word-`.`-word gluing, covering the digit-dot-digit decimal
veto and dotted abbreviations), abbreviation categories, and optional
sentence starters. -/
structure LanguageRules where
  code : String
  name : String
  /-- single characters that can end a sentence -/
  terminators : List Char
  /-- `(char, runLength)` runs recognised as an ellipsis pattern -/
  ellipsisRuns : List (Char × ℕ)
  /-- default `treat_as_boundary` decision for a recognised ellipsis -/
  ellipsisDefault : Bool
  /-- context rule: decision when the following token starts with a capital -/
  ellipsisCapital : Option Bool
  /-- asymmetric enclosure pairs `(open, close)`; id = list position -/
  asymEnclosures : List (Char × Char)
  /-- symmetric enclosure characters (same char opens and closes) -/
  symEnclosures : List Char
  /-- characters vetoed (glued into the token) between two word characters -/
  glueChars : List Char
  /-- category name ↦ abbreviation tokens (case-sensitive) -/
  abbreviations : List (String × List String)
  /-- optional sentence-starter words used to confirm borderline boundaries -/
  sentenceStarters : Option (List String)
deriving Repr

/-- Membership of a token in any abbreviation category of the rules. -/
def LanguageRules.isAbbrev (rules : LanguageRules) (tok : List Char) : Bool :=
  rules.abbreviations.any fun cat => cat.2.any fun a => a.toList = tok

/-- True when `tok` followed by a dot continues some configured multi-dot
abbreviation (e.g. `U` and `U.S` continue `U.S.A`), so the dot must not be
taken as a sentence terminator. -/
def LanguageRules.continuesAbbrev (rules : LanguageRules) (tok : List Char) : Bool :=
  rules.abbreviations.any fun cat =>
    cat.2.any fun a => List.isPrefixOf (tok ++ ['.']) a.toList

/-- Modelled from the spec: the bundled English rule set (terminators `.!?`,
`...`/`…` ellipses with the followed-by-capital context rule, parentheses and
symmetric double quotes, decimal/dotted-token glue, title and unit
abbreviation categories, no sentence starters). -/
def enRules : LanguageRules where
  code := "en"
  name := "English"
  terminators := ['.', '!', '?']
  ellipsisRuns := [('.', 3), ('…', 1)]
  ellipsisDefault := false
  ellipsisCapital := some true
  asymEnclosures := [('(', ')'), ('[', ']')]
  symEnclosures := ['"']
  glueChars := ['.']
  abbreviations :=
    [("titles", ["Dr", "Mr", "Mrs", "Ms", "Prof"]),
     ("places", ["U.S.A", "U.K", "St"]),
     ("misc", ["etc", "vs", "Inc"])]
  sentenceStarters := none

/-- Modelled from the spec: the bundled Japanese rule set (fullwidth
terminators, corner-bracket enclosures, no abbreviations). -/
def jaRules : LanguageRules where
  code := "ja"
  name := "Japanese"
  terminators := ['。', '！', '？']
  ellipsisRuns := [('…', 1), ('.', 3)]
  ellipsisDefault := false
  ellipsisCapital := some true
  asymEnclosures := [('「', '」'), ('（', '）')]
  symEnclosures := []
  glueChars := []
  abbreviations := []
  sentenceStarters := none

/-! ### ChunkState summaries

A settled region of text (one that both starts and ends at a whitespace
synchronisation point) is summarised by a `Summary`: its length, confirmed
boundary candidates tagged with the enclosure context in which they occurred
(the Δ-stack), the per-enclosure `(min_depth, net_depth)` deltas, the
symmetric-enclosure toggle parities, the first non-whitespace character (used
to resolve a neighbour's pending ellipsis decision), and at most one pending
ellipsis candidate still awaiting its following context. -/

/-- A sentence-boundary candidate: offset of the boundary (just after its
terminator) plus the enclosure context at the terminator.  `parity` holds the
symmetric-enclosure toggle parity before the terminator, `depth` the net
asymmetric-enclosure depth before the terminator; the candidate is confirmed
at emission only when it sits at depth zero of every enclosure. -/
structure Cand where
  pos : ℕ
  parity : List Bool
  depth : List Int
deriving DecidableEq, Repr

/-- Shift a candidate of a right summary into combined coordinates. -/
def Cand.shift (len : ℕ) (par : List Bool) (net : List Int) (c : Cand) : Cand :=
  ⟨c.pos + len, List.zipWith xor par c.parity, List.zipWith (· + ·) net c.depth⟩

/-- Shift a candidate across a whitespace-only summary (offsets only). -/
def Cand.shiftPos (len : ℕ) (c : Cand) : Cand :=
  ⟨c.pos + len, c.parity, c.depth⟩

/-- Summary of a settled region: either whitespace only, or a segment with
content.  This is the reconciled core of the spec's ChunkState. -/
inductive Summary where
  | allWS (len : ℕ)
  | seg (len : ℕ) (fns : Char) (cands : List Cand) (pend : Option Cand)
      (parity : List Bool) (deltas : List (Int × Int))
deriving DecidableEq, Repr

namespace Summary

/-- The monoid identity: an empty region. -/
def ident : Summary := .allWS 0

/-- Net depths of the asymmetric-enclosure deltas. -/
def nets (d : List (Int × Int)) : List Int := d.map (·.2)

/-- Combine two `(min_depth, net_depth)` delta pairs. -/
def dcomb (a b : Int × Int) : Int × Int := (min a.1 (a.2 + b.1), a.2 + b.2)

theorem dcomb_assoc (x y z : Int × Int) : dcomb (dcomb x y) z = dcomb x (dcomb y z) := by
  unfold dcomb
  refine Prod.ext ?_ (by simp [add_assoc])
  simp only
  omega

/-- The boundary decision for an ellipsis followed by the non-whitespace
character `c`: the default decision overridden by the followed-by-capital
context rule. -/
def decideEllipsis (rules : LanguageRules) (c : Char) : Bool :=
  match rules.ellipsisCapital with
  | some b => if c.isUpper then b else rules.ellipsisDefault
  | none => rules.ellipsisDefault

/-- Resolve a pending ellipsis candidate against the first following
non-whitespace character. -/
def resolveNext (rules : LanguageRules) (p : Option Cand) (c : Char) : List Cand :=
  match p with
  | none => []
  | some cand => if decideEllipsis rules c then [cand] else []

/-- Resolve a pending ellipsis candidate at end of input: the default
decision applies. -/
def resolveEOI (rules : LanguageRules) (p : Option Cand) : List Cand :=
  match p with
  | none => []
  | some cand => if rules.ellipsisDefault then [cand] else []

/-- The associative combination of two adjacent region summaries: lengths
add, right-hand candidates are shifted by the left length and by the left
enclosure deltas/parities, a left pending ellipsis is resolved against the
first non-whitespace character of the right region, and the enclosure deltas
compose with the min/net-depth rule. -/
def comb (rules : LanguageRules) : Summary → Summary → Summary
  | .allWS a, .allWS b => .allWS (a + b)
  | .allWS a, .seg lb f cb pb par d =>
      .seg (a + lb) f (cb.map (Cand.shiftPos a)) (pb.map (Cand.shiftPos a)) par d
  | .seg la f ca pa par d, .allWS b => .seg (la + b) f ca pa par d
  | .seg la fa ca pa para da, .seg lb fb cb pb parb db =>
      .seg (la + lb) fa
        (ca ++ resolveNext rules pa fb ++ cb.map (Cand.shift la para (nets da)))
        (pb.map (Cand.shift la para (nets da)))
        (List.zipWith xor para parb)
        (List.zipWith dcomb da db)

theorem cand_shiftPos_zero : Cand.shiftPos 0 = id := by
  funext c
  simp [Cand.shiftPos]

theorem comb_ident_left (rules : LanguageRules) (s : Summary) :
    comb rules ident s = s := by
  cases s with
  | allWS b => simp [comb, ident]
  | seg lb f cb pb par d =>
    simp [comb, ident, cand_shiftPos_zero]

theorem comb_ident_right (rules : LanguageRules) (s : Summary) :
    comb rules s ident = s := by
  cases s with
  | allWS b => simp [comb, ident]
  | seg lb f cb pb par d => simp [comb, ident]

theorem zipWith_xor_assoc (a b c : List Bool) :
    List.zipWith xor (List.zipWith xor a b) c = List.zipWith xor a (List.zipWith xor b c) :=
  zipWith_assoc_of_assoc xor Bool.xor_assoc a b c

theorem zipWith_addInt_assoc (a b c : List Int) :
    List.zipWith (· + ·) (List.zipWith (· + ·) a b) c =
      List.zipWith (· + ·) a (List.zipWith (· + ·) b c) :=
  zipWith_assoc_of_assoc (· + ·) add_assoc a b c

theorem zipWith_dcomb_assoc (a b c : List (Int × Int)) :
    List.zipWith dcomb (List.zipWith dcomb a b) c =
      List.zipWith dcomb a (List.zipWith dcomb b c) :=
  zipWith_assoc_of_assoc dcomb dcomb_assoc a b c

theorem cand_shift_shift (l1 l2 : ℕ) (p1 p2 : List Bool) (n1 n2 : List Int) (c : Cand) :
    Cand.shift l1 p1 n1 (Cand.shift l2 p2 n2 c) =
      Cand.shift (l2 + l1) (List.zipWith xor p1 p2) (List.zipWith (· + ·) n1 n2) c := by
  simp only [Cand.shift, Cand.mk.injEq]
  refine ⟨by omega, (zipWith_xor_assoc p1 p2 c.parity).symm,
    (zipWith_addInt_assoc n1 n2 c.depth).symm⟩

theorem cand_shift_shiftPos (l1 l2 : ℕ) (p1 : List Bool) (n1 : List Int) (c : Cand) :
    Cand.shift l1 p1 n1 (Cand.shiftPos l2 c) =
      Cand.shiftPos l2 (Cand.shift l1 p1 n1 c) := by
  simp [Cand.shift, Cand.shiftPos]
  omega

theorem cand_shiftPos_shift (l1 l2 : ℕ) (p1 : List Bool) (n1 : List Int) (c : Cand) :
    Cand.shiftPos l1 (Cand.shift l2 p1 n1 c) = Cand.shift (l2 + l1) p1 n1 c := by
  simp [Cand.shift, Cand.shiftPos]
  omega

theorem cand_shiftPos_shiftPos (l1 l2 : ℕ) (c : Cand) :
    Cand.shiftPos l1 (Cand.shiftPos l2 c) = Cand.shiftPos (l1 + l2) c := by
  simp [Cand.shiftPos]
  omega

theorem nets_zipWith_dcomb (a b : List (Int × Int)) :
    nets (List.zipWith dcomb a b) = List.zipWith (· + ·) (nets a) (nets b) := by
  unfold nets
  induction a generalizing b with
  | nil => simp
  | cons x xs ih =>
    cases b with
    | nil => simp
    | cons y ys => simp [dcomb, ih]

theorem resolveNext_shift (rules : LanguageRules) (l : ℕ) (p : List Bool) (n : List Int)
    (pa : Option Cand) (c : Char) :
    resolveNext rules (pa.map (Cand.shift l p n)) c =
      (resolveNext rules pa c).map (Cand.shift l p n) := by
  cases pa with
  | none => simp [resolveNext]
  | some cand =>
    by_cases h : decideEllipsis rules c <;> simp [resolveNext, h]

theorem resolveNext_shiftPos (rules : LanguageRules) (l : ℕ)
    (pa : Option Cand) (c : Char) :
    resolveNext rules (pa.map (Cand.shiftPos l)) c =
      (resolveNext rules pa c).map (Cand.shiftPos l) := by
  cases pa with
  | none => simp [resolveNext]
  | some cand =>
    by_cases h : decideEllipsis rules c <;> simp [resolveNext, h]

/-- Associativity of the summary combination. -/
theorem comb_assoc (rules : LanguageRules) (x y z : Summary) :
    comb rules (comb rules x y) z = comb rules x (comb rules y z) := by
  cases x <;> cases y <;> cases z <;>
    simp [comb, Summary.seg.injEq, Nat.add_assoc, Function.comp_def,
      List.map_map, List.map_append, List.append_assoc,
      resolveNext_shift, resolveNext_shiftPos,
      cand_shift_shift, cand_shift_shiftPos, cand_shiftPos_shift,
      cand_shiftPos_shiftPos, nets_zipWith_dcomb,
      zipWith_xor_assoc, zipWith_addInt_assoc, zipWith_dcomb_assoc,
      Nat.add_comm, Option.map_map] <;>
    omega

end Summary

/-! ### The region scanner

Modelled from the spec: §4.2.  The scanner walks a region in a single
forward pass, maintaining per-enclosure running depth, the current token (a
maximal alphanumeric run with vetoed word-dot-word glue characters folded
in, covering dotted abbreviations and decimals), and the active run of
identical terminator/ellipsis characters.  When a run closes, the decision
cascade applies in the spec's priority order: suppression glue, ellipsis
recognition (with the context rule against the first following
non-whitespace character), then bare terminators, where the first terminator
of the run is suppressed when the preceding token is a configured
abbreviation. -/

def isWordChar (c : Char) : Bool := c.isAlphanum

/-- Characters that participate in terminator/ellipsis runs. -/
def isRunChar (rules : LanguageRules) (c : Char) : Bool :=
  rules.terminators.contains c || rules.ellipsisRuns.any (·.1 = c)

def symIdx (rules : LanguageRules) (c : Char) : Option ℕ :=
  rules.symEnclosures.findIdx? (· = c)

def openIdx (rules : LanguageRules) (c : Char) : Option ℕ :=
  rules.asymEnclosures.findIdx? (·.1 = c)

def closeIdx (rules : LanguageRules) (c : Char) : Option ℕ :=
  rules.asymEnclosures.findIdx? (·.2 = c)

/-- The active run of identical terminator/ellipsis characters: its
character, its length so far, the token that preceded it, and whether the
character before the run was a word character. -/
structure RunInfo where
  ch : Char
  len : ℕ
  token : List Char
  prevChar : Option Char
deriving DecidableEq, Repr

/-- Scanner state for one region (spec §4.2): position, lookback (previous
character wordness, current token), the active run, the pending ellipsis
decision, first non-whitespace character, emitted boundary candidates, and
the per-enclosure depth trackers. -/
structure PState where
  pos : ℕ
  prevChar : Option Char
  token : List Char
  pendRun : Option RunInfo
  pend : Option Cand
  fns : Option Char
  cands : List Cand
  parity : List Bool
  minD : List Int
  netD : List Int
deriving DecidableEq, Repr

def initPS (rules : LanguageRules) : PState where
  pos := 0
  prevChar := none
  token := []
  pendRun := none
  pend := none
  fns := none
  cands := []
  parity := List.replicate rules.symEnclosures.length false
  minD := List.replicate rules.asymEnclosures.length 0
  netD := List.replicate rules.asymEnclosures.length 0

/-- Close the active run, deciding boundaries for it.  `next` is the
character immediately after the run (`none` at end of input). -/
def closeRunState (rules : LanguageRules) (s : PState) (info : RunInfo)
    (next : Option Char) : PState :=
  let tagC : ℕ → Cand := fun p => ⟨p, s.parity, s.netD⟩
  let prevWord : Bool := match info.prevChar with | some c => isWordChar c | none => false
  let prevDigit : Bool := match info.prevChar with | some c => c.isDigit | none => false
  let nextWord : Bool := match next with | some c => isWordChar c | none => false
  let nextDigit : Bool := match next with | some c => c.isDigit | none => false
  if info.ch ∈ rules.glueChars ∧ info.len = 1 ∧
      ((prevDigit ∧ nextDigit) ∨
        (prevWord ∧ nextWord ∧ rules.continuesAbbrev info.token)) then
    -- suppression fast-pattern (digit-dot-digit decimals) or a dot inside a
    -- configured multi-dot abbreviation: no boundary, the token continues
    { s with pendRun := none, token := info.token ++ [info.ch] }
  else if (info.ch, info.len) ∈ rules.ellipsisRuns then
    match next with
    | none =>
      { s with pendRun := none, token := [],
               cands := s.cands ++ (if rules.ellipsisDefault then [tagC s.pos] else []) }
    | some c =>
      if c.isWhitespace then
        { s with pendRun := none, token := [], pend := some (tagC s.pos) }
      else
        { s with pendRun := none, token := [],
                 cands := s.cands ++
                   (if Summary.decideEllipsis rules c then [tagC s.pos] else []) }
  else if info.ch ∈ rules.terminators then
    { s with pendRun := none, token := [],
             cands := s.cands ++ (List.range info.len).filterMap fun j =>
               if j = 0 ∧ rules.isAbbrev info.token then none
               else some (tagC (s.pos - info.len + j + 1)) }
  else
    { s with pendRun := none, token := [] }

/-- Apply one character to a run-free state: resolve the pending ellipsis
against a non-whitespace character, then dispatch on the character kind in
the spec's priority order (enclosures, terminator/ellipsis runs, word
characters, whitespace/other). -/
def applyChar (rules : LanguageRules) (s0 : PState) (c : Char) : PState :=
  let s :=
    if c.isWhitespace then s0
    else { s0 with cands := s0.cands ++ Summary.resolveNext rules s0.pend c,
                   pend := none, fns := s0.fns <|> some c }
  let base := { s with prevChar := some c, pos := s.pos + 1 }
  match symIdx rules c with
  | some i => { base with parity := s.parity.set i (!(s.parity.getD i false)), token := [] }
  | none =>
    match openIdx rules c with
    | some i => { base with netD := s.netD.set i (s.netD.getD i 0 + 1), token := [] }
    | none =>
      match closeIdx rules c with
      | some i =>
        let nn := s.netD.getD i 0 - 1
        { base with netD := s.netD.set i nn,
                    minD := s.minD.set i (min (s.minD.getD i 0) nn), token := [] }
      | none =>
        if isRunChar rules c then
          { base with pendRun := some ⟨c, 1, s.token, s.prevChar⟩, token := [] }
        else if isWordChar c then
          { base with token := s.token ++ [c] }
        else
          { base with token := [] }

/-- One scanner step: extend the active run, or close it and process the
character. -/
def stepChar (rules : LanguageRules) (st : PState) (c : Char) : PState :=
  match st.pendRun with
  | some info =>
    if info.ch = c then
      { st with pendRun := some ⟨info.ch, info.len + 1, info.token, info.prevChar⟩,
                pos := st.pos + 1, prevChar := some c, fns := st.fns <|> some c }
    else applyChar rules (closeRunState rules st info (some c)) c
  | none => applyChar rules st c

/-- Package a final scanner state as a region summary. -/
def toSummary (st : PState) : Summary :=
  match st.fns with
  | none => .allWS st.pos
  | some f => .seg st.pos f st.cands st.pend st.parity (st.minD.zip st.netD)

/-- Scan a settled region (one that ends at a whitespace synchronisation
point, so no run is left open). -/
def processRegion (rules : LanguageRules) (cs : List Char) : Summary :=
  toSummary (cs.foldl (stepChar rules) (initPS rules))

/-- Scan the final region of the input: at end of input all pending
candidates are flushed (spec §4.2, chunk end with `is_last_chunk`). -/
def processFinal (rules : LanguageRules) (cs : List Char) : Summary :=
  let st := cs.foldl (stepChar rules) (initPS rules)
  let st2 := match st.pendRun with
    | some info => closeRunState rules st info none
    | none => st
  toSummary st2

theorem processRegion_nil (rules : LanguageRules) :
    processRegion rules [] = Summary.ident := rfl

/-! ### ChunkState and the Combiner

Modelled from the spec: §3.2/§4.3.  A ChunkState summarises a processed
substring: the leading region up to the first whitespace synchronisation
point is kept verbatim as `dangling_start` (its interpretation may depend on
the previous chunk), the trailing region after the last synchronisation
point as `dangling_end`, and everything between is reconciled into a
`Summary` holding confirmed boundary candidates, enclosure deltas and the
pending ellipsis decision.  A chunk containing no synchronisation point is
entirely dangling (`allOpen`).  The identity element is the empty
`allOpen`. -/
inductive ChunkState where
  | allOpen (raw : List Char)
  | parts (pre : List Char) (mid : Summary) (suf : List Char)
deriving DecidableEq, Repr

namespace ChunkState

/-- The identity ChunkState: length 0, empty boundaries, zero deltas, empty
dangling fields. -/
def ident : ChunkState := .allOpen []

/-- Total length of the summarised substring. -/
def lengthCS : ChunkState → ℕ
  | .allOpen s => s.length
  | .parts p m s =>
    p.length + (match m with | .allWS l => l | .seg l _ _ _ _ _ => l) + s.length

/-- The associative Combiner `a ⊕ b` (spec §4.3): append dangling texts at
the seam; when the left side ends at a whitespace synchronisation point, the
finished regions are scanned and reconciled into the settled middle via
`Summary.comb` (which shifts offsets, composes the min/net enclosure deltas
and resolves pending candidates against the following context). -/
def combine (rules : LanguageRules) : ChunkState → ChunkState → ChunkState
  | .allOpen s, .allOpen t =>
    if endsWS s = true ∧ t ≠ [] then .parts s Summary.ident t else .allOpen (s ++ t)
  | .allOpen s, .parts q n u =>
    if endsWS s = true then .parts s (Summary.comb rules (processRegion rules q) n) u
    else .parts (s ++ q) n u
  | .parts p m s, .allOpen t =>
    if endsWS s = true ∧ t ≠ [] then
      .parts p (Summary.comb rules m (processRegion rules s)) t
    else .parts p m (s ++ t)
  | .parts p m s, .parts q n u =>
    if endsWS s = true then
      .parts p (Summary.comb rules
        (Summary.comb rules m (processRegion rules s))
        (Summary.comb rules (processRegion rules q) n)) u
    else .parts p (Summary.comb rules (Summary.comb rules m (processRegion rules (s ++ q))) n) u

theorem combine_ident_left (rules : LanguageRules) (x : ChunkState) :
    combine rules ident x = x := by
  cases x with
  | allOpen t => simp [combine, ident, endsWS]
  | parts q n u =>
    simp [combine, ident, endsWS, Summary.comb_ident_left, processRegion_nil]

theorem combine_ident_right (rules : LanguageRules) (x : ChunkState) :
    combine rules x ident = x := by
  cases x with
  | allOpen t => simp [combine, ident]
  | parts q n u => simp [combine, ident]

end ChunkState

theorem endsWS_nil : endsWS [] = false := rfl

theorem endsWS_append (s t : List Char) :
    endsWS (s ++ t) = if t.isEmpty then endsWS s else endsWS t := by
  cases t with
  | nil => simp
  | cons c cs => simp [endsWS_append_of_ne_nil]

theorem isEmpty_of_endsWS {l : List Char} (h : endsWS l = true) : l.isEmpty = false := by
  cases l with
  | nil => simp [endsWS] at h
  | cons c cs => simp

namespace ChunkState

/-- Associativity of the Combiner: the correctness backbone of the parallel
and streaming modes (spec §4.3). -/
theorem combine_assoc (rules : LanguageRules) (x y z : ChunkState) :
    combine rules (combine rules x y) z = combine rules x (combine rules y z) := by
  cases x <;> cases y <;> cases z <;>
    (simp only [combine]
     split_ifs <;>
       simp_all [combine, endsWS_append, isEmpty_of_endsWS,
         Summary.comb_assoc, Summary.comb_ident_left, Summary.comb_ident_right,
         processRegion_nil, List.append_assoc]) <;>
    (split_ifs <;>
       simp_all [endsWS_nil, Summary.comb_assoc, Summary.comb_ident_left,
         Summary.comb_ident_right, processRegion_nil, List.append_assoc])

end ChunkState

/-! ### Scanner over chunks, and sentence emission -/

/-- The Scanner (spec §4.2): a single forward pass over the chunk's
characters, incorporating each character into the ChunkState. -/
def scanChunk (rules : LanguageRules) (cs : List Char) : ChunkState :=
  cs.foldl (fun st c => ChunkState.combine rules st (.allOpen [c])) ChunkState.ident

/-- `scan(bytes, rules, is_first_chunk, is_last_chunk)` of spec §4.2.  In
this formulation all dangling resolution is deferred to the Combiner and to
emission, so the framing flags only select the flush behaviour at emission
time; the ChunkState produced by the forward pass itself is
flag-independent. -/
def scanWithFlags (rules : LanguageRules) (cs : List Char)
    (isFirstChunk isLastChunk : Bool) : ChunkState :=
  scanChunk rules cs

theorem scanChunk_foldl_from (rules : LanguageRules) (y : List Char) :
    ∀ a : ChunkState,
      y.foldl (fun st c => ChunkState.combine rules st (.allOpen [c])) a =
        ChunkState.combine rules a (scanChunk rules y) := by
  induction y with
  | nil => intro a; simp [scanChunk, ChunkState.combine_ident_right]
  | cons c y ih =>
    intro a
    have hy : scanChunk rules (c :: y) =
        ChunkState.combine rules (.allOpen [c]) (scanChunk rules y) := by
      show List.foldl _ (ChunkState.combine rules ChunkState.ident (.allOpen [c])) y = _
      rw [ChunkState.combine_ident_left, ih]
    simp only [List.foldl_cons, ih, hy, ChunkState.combine_assoc]

/-- The Scanner is a homomorphism into the ChunkState monoid: scanning a
concatenation equals combining the chunk scans. -/
theorem scanChunk_append (rules : LanguageRules) (x y : List Char) :
    scanChunk rules (x ++ y) =
      ChunkState.combine rules (scanChunk rules x) (scanChunk rules y) := by
  unfold scanChunk
  rw [List.foldl_append]
  exact scanChunk_foldl_from rules y _

/-- Finalise a ChunkState at end of input: the first dangling region is
scanned as chunk-initial text, the final dangling region is scanned with all
pending candidates flushed (`is_last_chunk` behaviour of spec §4.2). -/
def finalSummary (rules : LanguageRules) (st : ChunkState) : Summary :=
  match st with
  | .allOpen s => processFinal rules s
  | .parts p m s =>
    Summary.comb rules (processRegion rules p)
      (Summary.comb rules m (processFinal rules s))

/-- A candidate is confirmed when no enclosure is at positive depth around
it (spec §4.2 rule 1). -/
def keepCand (c : Cand) : Bool :=
  c.parity.all (· = false) && c.depth.all (· ≤ 0)

/-- All confirmed sentence boundary offsets of a text. -/
def boundaryOffsets (rules : LanguageRules) (T : List Char) : List ℕ :=
  let S := finalSummary rules (scanChunk rules T)
  let cs := match S with
    | .allWS _ => []
    | .seg _ _ cands pend _ _ => cands ++ Summary.resolveEOI rules pend
  (cs.filter keepCand).map (·.pos)

/-- Output sentence (spec §3.3): the textual content plus offsets into the
original input (`stop` is the exclusive end offset). -/
structure Sentence where
  text : List Char
  start : ℕ
  stop : ℕ
deriving DecidableEq, Repr

/-- The consecutive cut intervals induced by the boundary offsets: from 0
through each boundary to the end of the text. -/
def cutPairs (len : ℕ) (bs : List ℕ) : List (ℕ × ℕ) :=
  (0 :: (bs ++ [len])).zip (bs ++ [len])

/-- Turn cut intervals into sentences: each sentence's offsets span the raw
slice (including leading whitespace); its text is the raw slice, trimmed of
leading whitespace unless `preserve` is set.  Intervals whose content is
entirely whitespace produce no sentence. -/
def mkSentences (T : List Char) (preserve : Bool) (pairs : List (ℕ × ℕ)) :
    List Sentence :=
  pairs.filterMap fun ab =>
    let raw := sliceText T ab.1 ab.2
    if (trimLead raw).isEmpty then none
    else some ⟨if preserve then raw else trimLead raw, ab.1, ab.2⟩

/-- The sentences of a text under the given rules (core of `split`). -/
def sentencesOf (rules : LanguageRules) (preserve : Bool) (T : List Char) :
    List Sentence :=
  mkSentences T preserve (cutPairs T.length (boundaryOffsets rules T))

/-- The plain-string result form of `split`. -/
def sentenceTexts (rules : LanguageRules) (preserve : Bool) (T : List Char) :
    List (List Char) :=
  (sentencesOf rules preserve T).map (·.text)

/-! ### Executor

Modelled from the spec: §4.4.  The executor chooses sequential, parallel or
streaming strategy.  Sequential mode is one scan of the whole input;
parallel mode splits the input into chunks of the advisory size, scans each
and reduces the ChunkStates **in input order** with a balanced pairwise tree
reduction; streaming mode folds chunk states one at a time into a single
accumulated state.  Thread count affects scheduling only, never the
reduction order, and so does not appear in the result. -/

/-- Split a text into consecutive chunks of at most `k` characters
(`k > 0`); chunk boundaries land between scalar values by construction.
The fuel argument (instantiated with the text length) only drives the
recursion. -/
def chunksOfAux (k : ℕ) : ℕ → List Char → List (List Char)
  | _, [] => []
  | 0, _ :: _ => []
  | fuel + 1, l => l.take k :: chunksOfAux k fuel (l.drop k)

def chunksOf (k : ℕ) (l : List Char) : List (List Char) :=
  chunksOfAux k l.length l

theorem chunksOfAux_join (k : ℕ) (hk : 0 < k) :
    ∀ (fuel : ℕ) (l : List Char), l.length ≤ fuel →
      (chunksOfAux k fuel l).flatten = l := by
  intro fuel
  induction fuel with
  | zero =>
    intro l hl
    cases l with
    | nil => rfl
    | cons c cs => simp at hl
  | succ n ih =>
    intro l hl
    cases l with
    | nil => rfl
    | cons c cs =>
      simp only [chunksOfAux, List.flatten_cons]
      rw [ih ((c :: cs).drop k) ?_]
      · exact List.take_append_drop k (c :: cs)
      · simp only [List.length_drop, List.length_cons] at *
        omega

theorem chunksOf_join (k : ℕ) (hk : 0 < k) (l : List Char) :
    (chunksOf k l).flatten = l :=
  chunksOfAux_join k hk l.length l le_rfl

/-- One pass of the balanced reduction: combine neighbouring states in input
order. -/
def reducePass (rules : LanguageRules) : List ChunkState → List ChunkState
  | a :: b :: rest => ChunkState.combine rules a b :: reducePass rules rest
  | l => l

theorem length_reducePass_le (rules : LanguageRules) :
    ∀ l : List ChunkState, (reducePass rules l).length ≤ l.length := by
  intro l
  induction l using reducePass.induct rules with
  | case1 a b rest ih => simpa [reducePass] using Nat.le_succ_of_le ih
  | case2 l h => cases l with
    | nil => simp [reducePass]
    | cons a rest =>
      cases rest with
      | nil => simp [reducePass]
      | cons b r => exact absurd rfl (h a b r)

/-- The tree reduction of parallel mode: pair up neighbours, combine,
repeat (spec §4.4). -/
def reduceTree (rules : LanguageRules) (l : List ChunkState) : ChunkState :=
  match h : l with
  | [] => ChunkState.ident
  | [a] => a
  | a :: b :: rest =>
    reduceTree rules (reducePass rules (a :: b :: rest))
termination_by l.length
decreasing_by
  have := length_reducePass_le rules rest
  simp [reducePass]
  omega

theorem foldl_combine_from (rules : LanguageRules) (l : List ChunkState) :
    ∀ a : ChunkState,
      l.foldl (ChunkState.combine rules) a =
        ChunkState.combine rules a (l.foldl (ChunkState.combine rules) ChunkState.ident) := by
  induction l with
  | nil => intro a; simp [ChunkState.combine_ident_right]
  | cons x xs ih =>
    intro a
    simp only [List.foldl_cons]
    rw [ih (ChunkState.combine rules a x), ih (ChunkState.combine rules ChunkState.ident x),
      ChunkState.combine_ident_left, ChunkState.combine_assoc]

theorem foldl_reducePass (rules : LanguageRules) :
    ∀ (l : List ChunkState) (a : ChunkState),
      (reducePass rules l).foldl (ChunkState.combine rules) a =
        l.foldl (ChunkState.combine rules) a := by
  intro l
  induction l using reducePass.induct rules with
  | case1 x y rest ih =>
    intro a
    simp only [reducePass, List.foldl_cons, ih, ChunkState.combine_assoc]
  | case2 l h =>
    intro a
    cases l with
    | nil => rfl
    | cons x rest =>
      cases rest with
      | nil => rfl
      | cons y r => exact absurd rfl (h x y r)

theorem reduceTree_eq_foldl (rules : LanguageRules) (l : List ChunkState) :
    reduceTree rules l = l.foldl (ChunkState.combine rules) ChunkState.ident := by
  have H : ∀ n (l : List ChunkState), l.length ≤ n →
      reduceTree rules l = l.foldl (ChunkState.combine rules) ChunkState.ident := by
    intro n
    induction n with
    | zero =>
      intro l hl
      have : l = [] := by cases l with
        | nil => rfl
        | cons a r => simp at hl
      subst this
      rw [reduceTree]
      rfl
    | succ n ih =>
      intro l hl
      match l with
      | [] => rw [reduceTree]; rfl
      | [a] => rw [reduceTree]; simp [ChunkState.combine_ident_left]
      | a :: b :: rest =>
        rw [reduceTree]
        rw [ih (reducePass rules (a :: b :: rest)) ?_]
        · exact foldl_reducePass rules (a :: b :: rest) ChunkState.ident
        · have := length_reducePass_le rules rest
          simp only [reducePass, List.length_cons] at *
          omega
  exact H l.length l le_rfl

/-- Folding the scans of a chunk list equals scanning the concatenation:
the reduction of the Combiner reconstructs the sequential scan. -/
theorem foldl_scan_chunks (rules : LanguageRules) (ls : List (List Char)) :
    (ls.map (scanChunk rules)).foldl (ChunkState.combine rules) ChunkState.ident =
      scanChunk rules ls.flatten := by
  induction ls with
  | nil => rfl
  | cons x ls ih =>
    simp only [List.map_cons, List.foldl_cons, List.flatten_cons]
    rw [foldl_combine_from, ChunkState.combine_ident_left, ih, ← scanChunk_append]

/-- Execution modes of the executor (spec §4.4/§6). -/
inductive ExecMode where
  | sequential
  | parallel
  | adaptive
  | streaming
deriving DecidableEq, Repr

/-- Modelled from the spec: the adaptive-mode sequential threshold ("if
input size ≤ sequential threshold: sequential"); the concrete value is
advisory. -/
def sequentialThreshold : ℕ := 262144

/-- Emit the sentences of a reduced ChunkState for the original text. -/
def sentencesFrom (rules : LanguageRules) (preserve : Bool) (T : List Char)
    (st : ChunkState) : List Sentence :=
  let S := finalSummary rules st
  let cs := match S with
    | .allWS _ => []
    | .seg _ _ cands pend _ _ => cands ++ Summary.resolveEOI rules pend
  mkSentences T preserve (cutPairs T.length ((cs.filter keepCand).map (·.pos)))

theorem sentencesOf_eq_from (rules : LanguageRules) (preserve : Bool) (T : List Char) :
    sentencesOf rules preserve T = sentencesFrom rules preserve T (scanChunk rules T) := rfl

/-- The Executor (spec §4.4): sequential mode scans the whole input in one
pass; parallel mode scans chunks and reduces the ChunkStates in input order
with the balanced tree reduction; streaming mode folds each chunk state into
a single accumulated state; adaptive mode picks sequential below the size
threshold and parallel above it.  The thread count only affects scheduling,
never the reduction order. -/
def executeSplit (rules : LanguageRules) (mode : ExecMode) (_threads : Option ℕ)
    (chunkSize : ℕ) (preserve : Bool) (T : List Char) : List Sentence :=
  match mode with
  | .sequential => sentencesFrom rules preserve T (scanChunk rules T)
  | .parallel =>
    sentencesFrom rules preserve T
      (reduceTree rules ((chunksOf chunkSize T).map (scanChunk rules)))
  | .streaming =>
    sentencesFrom rules preserve T
      (((chunksOf chunkSize T).map (scanChunk rules)).foldl
        (ChunkState.combine rules) ChunkState.ident)
  | .adaptive =>
    if T.length ≤ sequentialThreshold then
      sentencesFrom rules preserve T (scanChunk rules T)
    else
      sentencesFrom rules preserve T
        (reduceTree rules ((chunksOf chunkSize T).map (scanChunk rules)))

/-- Every execution mode produces the sentences of the single sequential
scan. -/
theorem executeSplit_eq_sentencesOf (rules : LanguageRules) (mode : ExecMode)
    (threads : Option ℕ) (chunkSize : ℕ) (hk : 0 < chunkSize) (preserve : Bool)
    (T : List Char) :
    executeSplit rules mode threads chunkSize preserve T =
      sentencesOf rules preserve T := by
  have hscan : reduceTree rules ((chunksOf chunkSize T).map (scanChunk rules)) =
      scanChunk rules T := by
    rw [reduceTree_eq_foldl, foldl_scan_chunks, chunksOf_join chunkSize hk]
  cases mode with
  | sequential => rfl
  | parallel => simp [executeSplit, hscan, sentencesOf_eq_from]
  | streaming =>
    simp [executeSplit, foldl_scan_chunks, chunksOf_join chunkSize hk,
      sentencesOf_eq_from]
  | adaptive =>
    by_cases h : T.length ≤ sequentialThreshold <;>
      simp [executeSplit, h, hscan, sentencesOf_eq_from]

/-! ### Segmentation API

Modelled from the spec: §4.5/§6/§7, with the Python binding behaviour pinned
by the repository's test-suite: parameter validation happens before any
scanning; a Python `str` input is read from the filesystem exactly when it
names an existing file and is treated as literal text otherwise; `split`
validates byte-input encoding labels strictly while `iter_split` falls back
to UTF-8 for unrecognised labels. -/

/-- Errors surfaced by the binding layer (spec §7 taxonomy as translated to
Python exceptions by the tests). -/
inductive ApiError where
  | typeError (param : String)
  | overflowError
  | configurationError (msg : String)
  | invalidLanguageError (lang : String)
  | unsupportedEncoding (enc : String)
  | decodeError (enc : String)
  | fileNotFound (path : String)
deriving DecidableEq, Repr

/-- Is the error the configuration-error variant of the taxonomy? -/
def ApiError.isConfigError : ApiError → Bool
  | .configurationError _ => true
  | _ => false

/-- A Python numeric argument as seen by the binding: an integer or a float
(any float is rejected where an integer is required, whatever its value). -/
inductive PyNum where
  | int (n : Int)
  | float
deriving DecidableEq, Repr

/-- Validate the `threads` option: floats raise `TypeError`, negative values
raise `OverflowError` (unsigned conversion), zero raises
`ConfigurationError`; absent means auto. -/
def validateThreads (v : Option PyNum) : Except ApiError (Option ℕ) :=
  match v with
  | none => .ok none
  | some .float => .error (.typeError "threads")
  | some (.int n) =>
    if n < 0 then .error .overflowError
    else if n = 0 then .error (.configurationError "threads must be greater than 0")
    else .ok (some n.toNat)

/-- The default advisory chunk size in characters. -/
def defaultChunkSize : ℕ := 65536

/-- Validate the `chunk_size` option: floats raise `TypeError`, negative
values raise `OverflowError`, zero raises `ConfigurationError`. -/
def validateChunkSize (v : Option PyNum) : Except ApiError ℕ :=
  match v with
  | none => .ok defaultChunkSize
  | some .float => .error (.typeError "chunk_size")
  | some (.int n) =>
    if n < 0 then .error .overflowError
    else if n = 0 then .error (.configurationError "chunk_size must be greater than 0")
    else .ok n.toNat

/-- Parse the `execution_mode` option. -/
def parseMode (s : String) : Except ApiError ExecMode :=
  if s = "sequential" then .ok .sequential
  else if s = "parallel" then .ok .parallel
  else if s = "adaptive" then .ok .adaptive
  else if s = "streaming" then .ok .streaming
  else .error (.configurationError ("invalid execution_mode: " ++ s))

/-- Look up a bundled language rule set. -/
def lookupLanguage (lang : String) : Except ApiError LanguageRules :=
  if lang = "en" then .ok enRules
  else if lang = "ja" then .ok jaRules
  else .error (.invalidLanguageError lang)

/-- Byte-input encodings accepted by the core (spec §6). -/
inductive ByteEncoding where
  | utf8
  | ascii
  | latin1
deriving DecidableEq, Repr

/-- Strict encoding-label parsing used by `split`: unknown labels are
rejected with an "Unsupported encoding" error. -/
def parseEncodingStrict (s : String) : Except ApiError ByteEncoding :=
  if s = "utf-8" ∨ s = "utf8" then .ok .utf8
  else if s = "ascii" then .ok .ascii
  else if s = "latin-1" ∨ s = "latin1" then .ok .latin1
  else .error (.unsupportedEncoding s)

/-- Tolerant encoding-label parsing used by `iter_split` (web-compatible
label lookup): unrecognised labels fall back to UTF-8. -/
def parseEncodingTolerant (s : String) : ByteEncoding :=
  if s = "ascii" then .ascii
  else if s = "latin-1" ∨ s = "latin1" then .latin1
  else .utf8

/-- Decode UTF-8 bytes into characters; malformed sequences (stray
continuation bytes, truncated sequences, surrogates, out-of-range code
points) are rejected. -/
def utf8DecodeAux : ℕ → List ℕ → List Char → Except ApiError (List Char)
  | _, [], acc => .ok acc.reverse
  | 0, _ :: _, _ => .error (.decodeError "utf-8")
  | fuel + 1, b :: rest, acc =>
    if h1 : b < 0x80 then
      utf8DecodeAux fuel rest (Char.ofNat b :: acc)
    else if b < 0xC2 then .error (.decodeError "utf-8")
    else if b < 0xE0 then
      match rest with
      | b1 :: r2 =>
        if 0x80 ≤ b1 ∧ b1 < 0xC0 then
          utf8DecodeAux fuel r2 (Char.ofNat ((b - 0xC0) * 64 + (b1 - 0x80)) :: acc)
        else .error (.decodeError "utf-8")
      | [] => .error (.decodeError "utf-8")
    else if b < 0xF0 then
      match rest with
      | b1 :: b2 :: r2 =>
        let cp := (b - 0xE0) * 4096 + (b1 - 0x80) * 64 + (b2 - 0x80)
        if (0x80 ≤ b1 ∧ b1 < 0xC0) ∧ (0x80 ≤ b2 ∧ b2 < 0xC0) ∧
            ¬(0xD800 ≤ cp ∧ cp < 0xE000) ∧ 0x800 ≤ cp then
          utf8DecodeAux fuel r2 (Char.ofNat cp :: acc)
        else .error (.decodeError "utf-8")
      | _ => .error (.decodeError "utf-8")
    else if b < 0xF5 then
      match rest with
      | b1 :: b2 :: b3 :: r2 =>
        let cp := (b - 0xF0) * 262144 + (b1 - 0x80) * 4096 + (b2 - 0x80) * 64 + (b3 - 0x80)
        if (0x80 ≤ b1 ∧ b1 < 0xC0) ∧ (0x80 ≤ b2 ∧ b2 < 0xC0) ∧ (0x80 ≤ b3 ∧ b3 < 0xC0) ∧
            0x10000 ≤ cp ∧ cp < 0x110000 then
          utf8DecodeAux fuel r2 (Char.ofNat cp :: acc)
        else .error (.decodeError "utf-8")
      | _ => .error (.decodeError "utf-8")
    else .error (.decodeError "utf-8")

def decodeBytes (enc : ByteEncoding) (bs : List ℕ) : Except ApiError (List Char) :=
  match enc with
  | .utf8 => utf8DecodeAux bs.length bs []
  | .ascii =>
    if bs.all (· < 128) then .ok (bs.map Char.ofNat)
    else .error (.decodeError "ascii")
  | .latin1 =>
    if bs.all (· < 256) then .ok (bs.map Char.ofNat)
    else .error (.decodeError "latin-1")

/-- The UTF-8 bytes of an ASCII-compatible string (test inputs). -/
def strBytes (s : String) : List ℕ := s.toList.map Char.toNat

/-- The filesystem as seen by the binding: a mapping from paths to
UTF-8 text contents. -/
def FileSys : Type := List (String × String)

def lookupFile (fs : FileSys) (p : String) : Option String :=
  List.lookup p fs

/-- An input value at the API boundary (spec §6): a Python `str`, a byte
buffer, a typed path object, or a pull reader. -/
inductive ApiInput where
  | str (s : String)
  | bytes (bs : List ℕ)
  | pathObj (p : String)
  | reader (s : List Char)
deriving DecidableEq, Repr

/-- Resolve an API input to the text to scan.  A `str` is read from the
filesystem exactly when it names an existing file, and is treated as
literal text content otherwise (the tolerant disambiguation pinned by the
tests); a typed path object is always read from the filesystem; bytes are
decoded with the given encoding. -/
def resolveText (fs : FileSys) (inp : ApiInput) (enc : ByteEncoding) :
    Except ApiError (List Char) :=
  match inp with
  | .str s =>
    match lookupFile fs s with
    | some content => .ok content.toList
    | none => .ok s.toList
  | .bytes bs => decodeBytes enc bs
  | .pathObj p =>
    match lookupFile fs p with
    | some content => .ok content.toList
    | none => .error (.fileNotFound p)
  | .reader s => .ok s

/-- Options of `split`/`iter_split` (spec §6). -/
structure SplitOptions where
  language : String := "en"
  threads : Option PyNum := none
  chunkSize : Option PyNum := none
  executionMode : String := "adaptive"
  preserveWhitespace : Bool := false
  encoding : String := "utf-8"
deriving DecidableEq, Repr

/-- The `split` entry point: validate the configuration (before any
scanning), resolve the input, then execute.  Strict encoding-label
validation. -/
def splitApi (fs : FileSys) (inp : ApiInput) (opts : SplitOptions) :
    Except ApiError (List Sentence) := do
  let rules ← lookupLanguage opts.language
  let mode ← parseMode opts.executionMode
  let threads ← validateThreads opts.threads
  let csize ← validateChunkSize opts.chunkSize
  let enc ← parseEncodingStrict opts.encoding
  let T ← resolveText fs inp enc
  .ok (executeSplit rules mode threads csize opts.preserveWhitespace T)

/-- The `iter_split` entry point: same pipeline, but tolerant encoding-label
handling (unknown labels decode as UTF-8) and streaming execution. -/
def iterSplitApi (fs : FileSys) (inp : ApiInput) (opts : SplitOptions) :
    Except ApiError (List Sentence) := do
  let rules ← lookupLanguage opts.language
  let _mode ← parseMode opts.executionMode
  let threads ← validateThreads opts.threads
  let csize ← validateChunkSize opts.chunkSize
  let enc := parseEncodingTolerant opts.encoding
  let T ← resolveText fs inp enc
  .ok (executeSplit rules .streaming threads csize opts.preserveWhitespace T)

/-- The plain-string result form (`return_details=False`). -/
def apiTexts (r : Except ApiError (List Sentence)) :
    Except ApiError (List String) :=
  r.map (fun l => l.map (fun s => s.text.asString))

instance instDecEqExcept {ε α : Type} [DecidableEq ε] [DecidableEq α] :
    DecidableEq (Except ε α) := fun x y =>
  match x, y with
  | .ok a, .ok b =>
    if h : a = b then .isTrue (by rw [h])
    else .isFalse (by intro hh; injection hh; exact h ‹_›)
  | .ok _, .error _ => .isFalse (fun hh => Except.noConfusion hh)
  | .error _, .ok _ => .isFalse (fun hh => Except.noConfusion hh)
  | .error e, .error f =>
    if h : e = f then .isTrue (by rw [h])
    else .isFalse (by intro hh; injection hh; exact h ‹_›)

/-! ### The claims -/

/-- A named list of the candidates feeding emission, for stating filter
properties. -/
def finalCands (rules : LanguageRules) (T : List Char) : List Cand :=
  match finalSummary rules (scanChunk rules T) with
  | .allWS _ => []
  | .seg _ _ cands pend _ _ => cands ++ Summary.resolveEOI rules pend

theorem boundaryOffsets_eq (rules : LanguageRules) (T : List Char) :
    boundaryOffsets rules T = ((finalCands rules T).filter keepCand).map (·.pos) := rfl

theorem filterMap_some_eq_map {α β : Type} (f : α → β) (l : List α) :
    l.filterMap (fun a => some (f a)) = l.map f := by
  induction l with
  | nil => rfl
  | cons a l ih => simp [List.filterMap_cons, ih]

/-- Claim C1: for every fixed input text, language rule set and chunk size,
split produces an identical sentence sequence regardless of execution mode
(sequential, parallel, adaptive, streaming) and thread count. -/
theorem claim_C1_mode_equivalence (T : List Char) (rules : LanguageRules)
    (m1 m2 : ExecMode) (t1 t2 : Option ℕ) (k1 k2 : ℕ)
    (hk1 : 0 < k1) (hk2 : 0 < k2) (preserve : Bool) :
    executeSplit rules m1 t1 k1 preserve T = executeSplit rules m2 t2 k2 preserve T := by
  rw [executeSplit_eq_sentencesOf rules m1 t1 k1 hk1,
    executeSplit_eq_sentencesOf rules m2 t2 k2 hk2]

theorem claim_C1_witness :
    0 < 3 ∧ 0 < 7 ∧
      executeSplit enRules .parallel (some 2) 3 false "Hello world. How are you?".toList =
        executeSplit enRules .streaming none 7 false "Hello world. How are you?".toList :=
  ⟨by decide, by decide,
    claim_C1_mode_equivalence "Hello world. How are you?".toList enRules
      .parallel .streaming (some 2) none 3 7 (by decide) (by decide) false⟩

/-- Claim C2: scanning a concatenation as a single chunk yields the same
ChunkState as combining the two chunk scans with the monoid operation
(`scan(x ++ y) = scan_with_flags(x, first, false) ⊕ scan_with_flags(y,
false, last)`); in particular splitting a text at an arbitrary chunk
boundary never changes the emitted sentences. -/
theorem claim_C2_scan_monoid_hom (rules : LanguageRules) (x y T : List Char)
    (first last' preserve : Bool) (k : ℕ) :
    scanWithFlags rules (x ++ y) first last' =
      ChunkState.combine rules (scanWithFlags rules x first false)
        (scanWithFlags rules y false last') ∧
      sentencesFrom rules preserve T
          (ChunkState.combine rules (scanChunk rules (T.take k))
            (scanChunk rules (T.drop k))) =
        sentencesOf rules preserve T := by
  constructor
  · exact scanChunk_append rules x y
  · rw [← scanChunk_append, List.take_append_drop, sentencesOf_eq_from]

/-- Claim C3: for every emitted sentence the offsets refer to the original
input: with preserve_whitespace the text equals `input[start:stop]` exactly;
by default start/stop still span the leading whitespace, so
`input[start:stop]` reconstructs the raw slice and the text equals that
slice trimmed of its leading whitespace. -/
theorem claim_C3_offset_roundtrip (rules : LanguageRules) (preserve : Bool)
    (T : List Char) (s : Sentence) (hs : s ∈ sentencesOf rules preserve T) :
    s.text = (if preserve then sliceText T s.start s.stop
              else trimLead (sliceText T s.start s.stop)) := by
  unfold sentencesOf mkSentences at hs
  rw [List.mem_filterMap] at hs
  obtain ⟨ab, _, hf⟩ := hs
  by_cases h : (trimLead (sliceText T ab.1 ab.2)).isEmpty
  · simp [h] at hf
  · rw [if_neg h] at hf
    injection hf with hf
    subst hf
    cases preserve <;> rfl

theorem claim_C3_witness :
    (⟨"How are you?".toList, 12, 26⟩ : Sentence) ∈
        sentencesOf enRules false "Hello world.  How are you?".toList ∧
      (⟨"How are you?".toList, 12, 26⟩ : Sentence).text =
        (if false then
          sliceText "Hello world.  How are you?".toList 12 26
        else trimLead (sliceText "Hello world.  How are you?".toList 12 26)) :=
  ⟨by decide, claim_C3_offset_roundtrip enRules false
    "Hello world.  How are you?".toList ⟨"How are you?".toList, 12, 26⟩ (by decide)⟩

/-- Claim C4: a terminator immediately following a token that is a
configured abbreviation (in any category) with a lowercase continuation
emits no sentence boundary at that terminator; the Dr. / U.S.A. example
splits into exactly two sentences with no boundary mid-sentence. -/
theorem claim_C4_abbreviation_suppression :
    (∀ (rules : LanguageRules) (s : PState) (info : RunInfo) (c : Char),
        rules.isAbbrev info.token = true →
        info.len = 1 →
        (info.ch, info.len) ∉ rules.ellipsisRuns →
        c.isLower = true →
        (closeRunState rules s info (some c)).cands = s.cands) ∧
      (sentenceTexts enRules false
          "Dr. Smith went to the U.S.A. yesterday. He had a meeting.".toList).map
          List.asString =
        ["Dr. Smith went to the U.S.A. yesterday.", "He had a meeting."] := by
  constructor
  · intro rules s info c h1 h2 h3 _h4
    unfold closeRunState
    dsimp only
    split_ifs <;>
      first
        | rfl
        | simp_all [List.range_succ]
  · decide

theorem claim_C4_witness :
    enRules.isAbbrev "Dr".toList = true ∧ Char.isLower 'h' = true ∧
      (closeRunState enRules (initPS enRules)
          ⟨'.', 1, "Dr".toList, some 'r'⟩ (some 'h')).cands = (initPS enRules).cands :=
  ⟨by decide, by decide,
    claim_C4_abbreviation_suppression.1 enRules (initPS enRules)
      ⟨'.', 1, "Dr".toList, some 'r'⟩ 'h' (by decide) rfl (by decide) (by decide)⟩

/-- Claim C5: a terminator occurring while some configured enclosure pair is
at positive running depth emits no boundary: every emitted boundary offset
stems from a candidate whose enclosure context is entirely at non-positive
depth; the quoted-period example stays a single sentence. -/
theorem claim_C5_enclosure_suppression :
    (∀ (rules : LanguageRules) (T : List Char) (p : ℕ),
        p ∈ boundaryOffsets rules T →
        ∃ c ∈ finalCands rules T, keepCand c = true ∧ c.pos = p) ∧
      (sentenceTexts enRules false
          "He said \"Hello there.\" Then he left.".toList).map List.asString =
        ["He said \"Hello there.\" Then he left."] := by
  constructor
  · intro rules T p hp
    rw [boundaryOffsets_eq, List.mem_map] at hp
    obtain ⟨c, hc, rfl⟩ := hp
    rw [List.mem_filter] at hc
    exact ⟨c, hc.1, hc.2, rfl⟩
  · decide

theorem claim_C5_witness :
    (36 : ℕ) ∈ boundaryOffsets enRules
        "He said \"Hello there.\" Then he left.".toList ∧
      ∃ c ∈ finalCands enRules "He said \"Hello there.\" Then he left.".toList,
        keepCand c = true ∧ c.pos = 36 :=
  ⟨by decide, claim_C5_enclosure_suppression.1 enRules
    "He said \"Hello there.\" Then he left.".toList 36 (by decide)⟩

/-- Claim C6 fails as stated: a plain string that names an existing file is
read from the filesystem even though the caller did not mark it as a path
(`test_string_path_input`). -/
theorem claim_C6_counterexample :
    resolveText [("/tmp/data.txt", "Hi there. Bye.")]
        (.str "/tmp/data.txt") .utf8 = .ok "Hi there. Bye.".toList ∧
      resolveText [("/tmp/data.txt", "Hi there. Bye.")]
        (.str "/tmp/data.txt") .utf8 ≠ .ok "/tmp/data.txt".toList := by
  constructor
  · rfl
  · decide

/-- Claim C6 (amended): a string input to split or iter_split is treated as
literal text content exactly when it does not name an existing file; a
string naming an existing file is read from the filesystem, as is a typed
path object (which fails with a file error when the file is missing). -/
theorem claim_C6_amended (fs : FileSys) (s p : String) (enc : ByteEncoding) :
    (lookupFile fs s = none → resolveText fs (.str s) enc = .ok s.toList) ∧
      (∀ content, lookupFile fs s = some content →
        resolveText fs (.str s) enc = .ok content.toList) ∧
      (∀ content, lookupFile fs p = some content →
        resolveText fs (.pathObj p) enc = .ok content.toList) ∧
      (lookupFile fs p = none →
        resolveText fs (.pathObj p) enc = .error (.fileNotFound p)) := by
  refine ⟨fun h => ?_, fun content h => ?_, fun content h => ?_, fun h => ?_⟩ <;>
    simp [resolveText, h]

theorem claim_C6_amended_witness :
    lookupFile [] "/non/existent/file.txt" = none ∧
      resolveText [] (.str "/non/existent/file.txt") .utf8 =
        .ok "/non/existent/file.txt".toList ∧
      lookupFile [("/tmp/d.txt", "Hi.")] "/tmp/d.txt" = some "Hi." ∧
      resolveText [("/tmp/d.txt", "Hi.")] (.pathObj "/tmp/d.txt") .utf8 =
        .ok "Hi.".toList :=
  ⟨rfl,
    (claim_C6_amended [] "/non/existent/file.txt" "" .utf8).1 rfl,
    rfl,
    (claim_C6_amended [("/tmp/d.txt", "Hi.")] "" "/tmp/d.txt" .utf8).2.2.1 "Hi." rfl⟩

/-- Claim C7 fails as stated: a fractional `threads` value makes split fail
with TypeError, which is not the configuration-error variant of the error
taxonomy (`test_split_float_threads`). -/
theorem claim_C7_counterexample :
    splitApi [] (.str "Hello.") { threads := some .float } =
        .error (.typeError "threads") ∧
      (ApiError.typeError "threads").isConfigError = false := by
  exact ⟨rfl, rfl⟩

/-- Claim C7 (amended): invalid configuration fails before any scanning and
no sentences are emitted, but the error kinds differ by case: fractional
values where integers are required raise TypeError, negative counts raise
OverflowError, a zero thread count and an unknown execution mode raise
ConfigurationError, and an unknown language raises InvalidLanguageError;
absent (None) thread counts are valid and mean auto. -/
theorem claim_C7_amended :
    splitApi [] (.str "Hello. World.") { threads := some .float } =
        .error (.typeError "threads") ∧
      splitApi [] (.str "Hello. World.") { chunkSize := some .float } =
        .error (.typeError "chunk_size") ∧
      iterSplitApi [] (.str "Hello.") { chunkSize := some .float } =
        .error (.typeError "chunk_size") ∧
      splitApi [] (.str "Hello. World.") { threads := some (.int 0) } =
        .error (.configurationError "threads must be greater than 0") ∧
      splitApi [] (.str "Hello. World.") { threads := some (.int (-1)) } =
        .error .overflowError ∧
      splitApi [] (.str "Hello.") { executionMode := "invalid_mode" } =
        .error (.configurationError "invalid execution_mode: invalid_mode") ∧
      splitApi [] (.str "Hello.") { language := "invalid_lang" } =
        .error (.invalidLanguageError "invalid_lang") ∧
      apiTexts (splitApi [] (.str "Hello. World.") {}) =
        .ok ["Hello.", "World."] := by
  decide

/-- Claim C8: a run of consecutive identical terminators that is not an
ellipsis pattern emits one boundary per terminator (single-character
sentences after the first), while a matching ellipsis pattern takes
precedence over its constituent terminators and stays one unit. -/
theorem claim_C8_terminator_runs :
    (∀ (rules : LanguageRules) (s : PState) (info : RunInfo) (next : Option Char),
        info.ch ∈ rules.terminators →
        (info.ch, info.len) ∉ rules.ellipsisRuns →
        2 ≤ info.len →
        rules.isAbbrev info.token = false →
        (closeRunState rules s info next).cands =
          s.cands ++ (List.range info.len).map
            (fun j => ⟨s.pos - info.len + j + 1, s.parity, s.netD⟩)) ∧
      ('.', 3) ∈ enRules.ellipsisRuns ∧
      (sentenceTexts enRules false
          "Hello... World!!! How are you???".toList).map List.asString =
        ["Hello...", "World!", "!", "!", "How are you?", "?", "?"] := by
  refine ⟨?_, by decide, by decide⟩
  intro rules s info next h1 h2 h3 h4
  unfold closeRunState
  dsimp only
  split_ifs <;>
    first
      | (exfalso; omega)
      | simp_all [filterMap_some_eq_map]
      | rfl

theorem claim_C8_witness :
    ('!' ∈ enRules.terminators ∧ ('!', 3) ∉ enRules.ellipsisRuns ∧
        2 ≤ 3 ∧ enRules.isAbbrev "World".toList = false) ∧
      (closeRunState enRules (initPS enRules)
          ⟨'!', 3, "World".toList, some 'd'⟩ (some ' ')).cands =
        (initPS enRules).cands ++ (List.range 3).map
          (fun j => ⟨(initPS enRules).pos - 3 + j + 1,
            (initPS enRules).parity, (initPS enRules).netD⟩) :=
  ⟨⟨by decide, by decide, by decide, by decide⟩,
    claim_C8_terminator_runs.1 enRules (initPS enRules)
      ⟨'!', 3, "World".toList, some 'd'⟩ (some ' ')
      (by decide) (by decide) (by decide) (by decide)⟩

/-- Claim C9: encoding-label validation differs between the two entry
points: split rejects an unsupported label for bytes input with an
"Unsupported encoding" error, while iter_split with an unrecognised label
raises no error and decodes the bytes as UTF-8, returning the same
sentences as with encoding="utf-8". -/
theorem claim_C9_encoding_validation :
    splitApi [] (.bytes (strBytes "Some text")) { encoding := "shift-jis" } =
        .error (.unsupportedEncoding "shift-jis") ∧
      (∀ (fs : FileSys) (bs : List ℕ),
        iterSplitApi fs (.bytes bs) { encoding := "invalid-encoding" } =
          iterSplitApi fs (.bytes bs) { encoding := "utf-8" }) ∧
      apiTexts (iterSplitApi []
          (.bytes (strBytes "Hello. World.")) { encoding := "invalid-encoding" }) =
        .ok ["Hello.", "World."] := by
  refine ⟨by decide, ?_, by decide⟩
  intro fs bs
  rfl

/-- Claim C10: every empty input — empty string, empty bytes, empty reader
stream — yields the empty sentence list from split and iter_split, in both
result forms; no empty unterminated final sentence is emitted. -/
theorem claim_C10_empty_inputs :
    splitApi [] (.str "") {} = .ok [] ∧
      iterSplitApi [] (.str "") {} = .ok [] ∧
      splitApi [] (.bytes []) {} = .ok [] ∧
      iterSplitApi [] (.bytes []) {} = .ok [] ∧
      splitApi [] (.reader []) {} = .ok [] ∧
      apiTexts (splitApi [] (.str "") {}) = .ok [] ∧
      sentencesOf enRules false [] = [] ∧
      sentencesOf enRules true [] = [] ∧
      sentencesOf jaRules false [] = [] := by
  decide
